import Mathlib

/-!
Verification of the reconciliation pipeline of the wikidata-SparQL-data-collection
repository.  The repository ships its behavior documentation (README, notebook);
the Python module `functions.py` itself is not part of the shipped sources, so the
resolution pipeline below is modelled from the design specification (spec.md) and
from the concrete input/output examples recorded in the repository's README.
The query-template escaping, in contrast, appears verbatim in the README and is
embedded here exactly as written there.
-/

set_option maxRecDepth 4096

/-- One work-location statement of an entity, with optional qualifier timestamps
(spec section 3). -/
structure WorkLocationEntry where
  location : String
  start_time : Option String
  end_time : Option String
  point_in_time : Option String
deriving DecidableEq

/-- The resolved representation of one person/entity (spec section 3). -/
structure EntityRecord where
  name : String
  id : Option String
  birth_place : Option String
  death_place : Option String
  birth_date : Option String
  death_date : Option String
  gender : Option String
  citizenship : Option String
  occupation : List String
  work_locations : List WorkLocationEntry
deriving DecidableEq

/-- The batch result: records for resolved names, plus the request strings that
never matched in any round (spec section 3). -/
structure ResolutionResult where
  resolved : List EntityRecord
  unresolved : List String
deriving DecidableEq

/-- One raw tabular binding row returned by the query service: one
(entity x multi-valued-attribute) combination (spec sections 2 and 6). -/
structure Row where
  person : Option String
  personLabel : String
  placeOfBirthLabel : Option String
  dateOfBirth : Option String
  dateOfDeath : Option String
  placeOfDeathLabel : Option String
  genderLabel : Option String
  citizenshipLabel : Option String
  occupationLabel : Option String
  workLocationLabel : Option String
  startTime : Option String
  endTime : Option String
  pointInTime : Option String
deriving DecidableEq

/-- The two query shapes the orchestrator issues: one enumerated-values batch
query, or one per-entity query, each with a language tag (spec section 4.1). -/
inductive Query where
  | batch (names : List String) (lang : String)
  | single (name : String) (lang : String)
deriving DecidableEq

/-- Outcome of one Endpoint Client call after its own bounded retries: either
raw rows, or a transient failure surfaced to the orchestrator (spec section 4.2). -/
inductive ClientOutcome where
  | rows (rs : List Row)
  | transient
deriving DecidableEq

/-- Case-insensitive equality on names, the match relation of the batch round
(spec section 4.4, step 1). -/
def ciEq (a b : String) : Bool := a.toLower == b.toLower

/-- Modelled from the spec: grouping identity of a raw row in the Row Aggregator
of the missing functions.py - the identifier when present, else the label
(spec section 4.3). -/
def entityKey (r : Row) : String :=
  match r.person with
  | some i => i
  | none => r.personLabel

/-- Modelled from the spec: the record opened for the first row of an entity in
the missing functions.py aggregation; scalar fields come from that first row
(spec section 4.3). -/
def newRecord (r : Row) : EntityRecord :=
  { name := r.personLabel
    id := r.person
    birth_place := r.placeOfBirthLabel
    death_place := r.placeOfDeathLabel
    birth_date := r.dateOfBirth
    death_date := r.dateOfDeath
    gender := r.genderLabel
    citizenship := r.citizenshipLabel
    occupation :=
      match r.occupationLabel with
      | none => []
      | some o => [o]
    work_locations :=
      match r.workLocationLabel with
      | none => []
      | some l => [⟨l, r.startTime, r.endTime, r.pointInTime⟩] }

/-- Modelled from the spec: folding one further row of an already-seen entity
into its record in the missing functions.py aggregation.  Occupations are
appended once per distinct label; every work-location row appends a fresh
entry, never merging with an earlier entry for the same place
(spec section 4.3). -/
def addRow (rec : EntityRecord) (r : Row) : EntityRecord :=
  { rec with
    occupation :=
      match r.occupationLabel with
      | none => rec.occupation
      | some o => if o ∈ rec.occupation then rec.occupation else rec.occupation ++ [o]
    work_locations :=
      match r.workLocationLabel with
      | none => rec.work_locations
      | some l => rec.work_locations ++ [⟨l, r.startTime, r.endTime, r.pointInTime⟩] }

/-- One step of the grouping fold: route the row to its entity's record, keyed
by `entityKey`, keeping first-seen entity order (spec section 4.3). -/
def aggStep (acc : List (String × EntityRecord)) (r : Row) : List (String × EntityRecord) :=
  if (∃ p ∈ acc, p.1 = entityKey r) then
    acc.map (fun p => if p.1 = entityKey r then (p.1, addRow p.2 r) else p)
  else
    acc ++ [(entityKey r, newRecord r)]

/-- Modelled from the spec: the Row Aggregator of the missing functions.py -
group flat rows into one record per entity, in first-seen row order
(spec section 4.3). -/
def aggregateRows (rows : List Row) : List EntityRecord :=
  (rows.foldl aggStep []).map Prod.snd

/-- Modelled from the spec: find_year of the missing functions.py - read the
leading decimal digits of an ISO-8601 timestamp as the year
(spec section 4.5). -/
def find_year (s : String) : Option Nat :=
  match s.data.takeWhile Char.isDigit with
  | [] => none
  | ds => some (ds.foldl (fun n c => 10 * n + (c.toNat - 48)) 0)

/-- Start years of overlapping-or-adjacent intervals can be combined: the
intervals touch when each one starts no later than one year after the other
ends (spec section 4.5). -/
def overlapsOrAdjacent (a b : Nat × Nat) : Bool :=
  decide (a.1 ≤ b.2 + 1) && decide (b.1 ≤ a.2 + 1)

/-- Merge one interval into the collected segments: combine it with the first
segment it overlaps or abuts, else append it after the existing segments. -/
def addInterval : List (Nat × Nat) → Nat × Nat → List (Nat × Nat)
  | [], iv => [iv]
  | c :: rest, iv =>
      if overlapsOrAdjacent c iv then
        (min c.1 iv.1, max c.2 iv.2) :: rest
      else
        c :: addInterval rest iv

/-- Modelled from the spec: collapse_intervals of the missing functions.py -
fold a location's (start, end) year pairs into compact segments, merging
overlapping/adjacent pairs; segments keep the order in which intervals are
first encountered, matching the README's recorded outputs
(The Hague: 1881-1883,1869-1873) (spec section 4.5). -/
def collapse_intervals (ivs : List (Nat × Nat)) : List (Nat × Nat) :=
  ivs.foldl addInterval []

/-- Render collapsed segments as the start-end[,start-end...] range string,
one start-end item per segment in list order, comma-joined
(spec section 4.5). -/
def rangeString : List (Nat × Nat) → String
  | [] => ""
  | [p] => Nat.repr p.1 ++ "-" ++ Nat.repr p.2
  | p :: q :: rest => Nat.repr p.1 ++ "-" ++ Nat.repr p.2 ++ "," ++ rangeString (q :: rest)

/-- Is the segment list sorted by start year ascending?  (The ordering the spec
asserts for collapse_intervals output.) -/
def ascendingStarts : List (Nat × Nat) → Bool
  | [] => true
  | [_] => true
  | a :: b :: t => decide (a.1 ≤ b.1) && ascendingStarts (b :: t)

/-- First-occurrence deduplication with an accumulator of already-listed
places, the loop shape of the missing functions.py helper. -/
def dedupAcc (acc : List String) : List String → List String
  | [] => acc
  | x :: l => if x ∈ acc then dedupAcc acc l else dedupAcc (acc ++ [x]) l

/-- Modelled from the spec: get_places_from_response of the missing
functions.py - the work-location labels of a record with duplicates removed,
keeping first-occurrence order (README usage sections). -/
def get_places_from_response (rec : EntityRecord) : List String :=
  dedupAcc [] (rec.work_locations.map WorkLocationEntry.location)

/-- Reference form of first-occurrence deduplication: keep the head, then
deduplicate the tail with all copies of the head removed. -/
def dedupFirst : List String → List String
  | [] => []
  | x :: l => x :: (dedupFirst l).filter (fun y => y ≠ x)

/-- The (start, end) year pairs of one place's work-location entries; entries
missing either timestamp contribute nothing. -/
def entry_years (w : WorkLocationEntry) : Option (Nat × Nat) :=
  match w.start_time, w.end_time with
  | some s, some e =>
      match find_year s, find_year e with
      | some ys, some ye => some (ys, ye)
      | _, _ => none
  | _, _ => none

/-- The datable intervals recorded for one place of a record, in row order. -/
def intervalsFor (rec : EntityRecord) (place : String) : List (Nat × Nat) :=
  (rec.work_locations.filter (fun w => w.location = place)).filterMap entry_years

/-- Modelled from the spec: get_places_with_years_from_response of the missing
functions.py - one place:ranges item per place that has at least one datable
interval (README usage sections). -/
def get_places_with_years_from_response (rec : EntityRecord) : List String :=
  (get_places_from_response rec).filterMap (fun place =>
    match collapse_intervals (intervalsFor rec place) with
    | [] => none
    | ivs => some (place ++ ":" ++ rangeString ivs))

/-- Python str.replace for a single-character pattern: substitute `rep` for
every occurrence of `pat`. -/
def pyReplaceChar (s : List Char) (pat : Char) (rep : List Char) : List Char :=
  s.foldr (fun c acc => if c = pat then rep ++ acc else c :: acc) []

/-- The name transformation of the README's query template, exactly as the
source writes it: person_name.replace of a quote by the Python literal
backslash-quote - which in Python denotes the single quote character, so the
replacement substitutes a quote for a quote. -/
def escape_person_name (s : String) : String :=
  String.mk (pyReplaceChar s.data '"' ['"'])

/-- The escaping the spec contracts for the Query Builder: backslash-escape
every backslash and every quote of the embedded name (spec section 4.1). -/
def specEscape (s : String) : String :=
  String.mk (pyReplaceChar (pyReplaceChar s.data '\\' ['\\', '\\']) '"' ['\\', '"'])

/-- Well-formedness of a quoted string-literal body: a backslash escapes the
next character, and no unescaped quote may occur. -/
def okLit : List Char → Bool
  | [] => true
  | '\\' :: [] => false
  | '\\' :: _ :: rest => okLit rest
  | '"' :: _ => false
  | _ :: rest => okLit rest

/-- The name-matching clause of the query template, with the name embedded by
the source's replace call (README query template). -/
def person_label_clause (name : String) (lang : String) : String :=
  "?person ?label \"" ++ escape_person_name name ++ "\"@" ++ lang ++ "."

/-- The default query language (spec section 4.1). -/
def defaultLang : String := "en"

/-- Modelled from the spec: create_person_info_from_results of the missing
functions.py - build the single-name record from the per-entity query's rows;
the record's name field is the requested query string itself, exactly as the
README's recorded response shows (name Van Gogh for query Van Gogh). -/
def create_person_info_from_results (person_name : String) (rows : List Row) :
    Option EntityRecord :=
  match aggregateRows rows with
  | [] => none
  | rec :: _ => some { rec with name := person_name }

/-- Modelled from the spec: the per-entity single-name query of the missing
functions.py, issued in one language; a transient failure surfaced by the
client counts as no data this round (spec sections 4.2 and 4.4). -/
def singleQuery (svc : Query → ClientOutcome) (n : String) (lang : String) :
    Option EntityRecord :=
  match svc (Query.single n lang) with
  | ClientOutcome.rows rs => create_person_info_from_results n rs
  | ClientOutcome.transient => none

/-- Modelled from the spec: get_all_person_info of the missing functions.py -
the public single-name path, a per-entity query in the default language. -/
def get_all_person_info (svc : Query → ClientOutcome) (name : String) :
    Option EntityRecord :=
  singleQuery svc name defaultLang

/-- Modelled from the spec: round 3 of the missing functions.py orchestration -
try the per-entity query under each fallback language in priority order,
stopping at the first language that yields a match (spec section 4.4). -/
def tryLangs (svc : Query → ClientOutcome) (n : String) : List String → Option EntityRecord
  | [] => none
  | l :: ls =>
      match singleQuery svc n l with
      | some r => some r
      | none => tryLangs svc n ls

/-- Modelled from the spec: the candidate records of the batch round - one
enumerated-values query over all requested names in the default language,
aggregated per entity; a transient failure yields no candidates
(spec section 4.4, step 1). -/
def batchCandidates (svc : Query → ClientOutcome) (names : List String) : List EntityRecord :=
  match svc (Query.batch names defaultLang) with
  | ClientOutcome.rows rs => aggregateRows rs
  | ClientOutcome.transient => []

/-- Modelled from the spec: the batch round's outcome for one requested name -
the first candidate whose label matches the name case-insensitively, if any
(spec section 4.4, step 1). -/
def round1Outcome (svc : Query → ClientOutcome) (names : List String) (n : String) :
    Option EntityRecord :=
  (batchCandidates svc names).find? (fun c => ciEq c.name n)

/-- Case-insensitive first-occurrence deduplication of the request batch: the
orchestrator works each case-insensitive identity once, so no duplicate work
is done (spec sections 1 and 8). -/
def dedupCIAcc (acc : List String) : List String → List String
  | [] => acc
  | n :: l =>
      if acc.any (fun m => ciEq m n) then dedupCIAcc acc l
      else dedupCIAcc (acc ++ [n]) l

/-- The distinct requested names under case-insensitive identity, in original
first-occurrence order. -/
def dedupCI (names : List String) : List String := dedupCIAcc [] names

/-- Modelled from the spec: round 1 of the missing functions.py orchestration -
execute the batch query and pair every distinct requested name with its
matched candidate, or none, leaving the name PENDING (spec section 4.4). -/
def round1 (svc : Query → ClientOutcome) (names : List String) :
    List (String × Option EntityRecord) :=
  (dedupCI names).map (fun n => (n, round1Outcome svc names n))

/-- Modelled from the spec: round 2 of the missing functions.py orchestration -
every still-PENDING name gets an individual default-language query; a success
replaces the pending state (spec section 4.4). -/
def round2 (svc : Query → ClientOutcome) (st : List (String × Option EntityRecord)) :
    List (String × Option EntityRecord) :=
  st.map (fun p =>
    match p.2 with
    | some r => (p.1, some r)
    | none => (p.1, singleQuery svc p.1 defaultLang))

/-- Modelled from the spec: round 3 of the missing functions.py orchestration -
every still-PENDING name is retried under the fallback languages in priority
order (spec section 4.4). -/
def round3 (svc : Query → ClientOutcome) (fallbacks : List String)
    (st : List (String × Option EntityRecord)) : List (String × Option EntityRecord) :=
  st.map (fun p =>
    match p.2 with
    | some r => (p.1, some r)
    | none => (p.1, tryLangs svc p.1 fallbacks))

/-- The cascade a single name goes through across the three rounds: batch
match, then default-language retry, then language fallback. -/
def finalOutcome (svc : Query → ClientOutcome) (names fallbacks : List String)
    (n : String) : Option EntityRecord :=
  match round1Outcome svc names n with
  | some r => some r
  | none =>
      match singleQuery svc n defaultLang with
      | some r => some r
      | none => tryLangs svc n fallbacks

/-- Modelled from the spec: resolve_batch, the public face of the missing
functions.py get_multiple_people_all_info_fast_retry_missing - run the three
rounds and emit resolved records and never-matched names, both in original
request order (spec section 4.4). -/
def resolve_batch (svc : Query → ClientOutcome) (names fallbacks : List String) :
    ResolutionResult :=
  let st := round3 svc fallbacks (round2 svc (round1 svc names))
  { resolved := st.filterMap Prod.snd
    unresolved := (st.filter (fun p => p.2.isNone)).map Prod.fst }

/-- Replace every transient client outcome by an empty row set: the degraded
service a caller would see if transient failures were plain empty answers. -/
def degrade (svc : Query → ClientOutcome) : Query → ClientOutcome :=
  fun q =>
    match svc q with
    | ClientOutcome.rows rs => ClientOutcome.rows rs
    | ClientOutcome.transient => ClientOutcome.rows []

/-- A well-formed language tag for this pipeline: nonempty, all lowercase
ASCII letters (spec section 7, construction-level validation). -/
def validLangTag (l : String) : Bool :=
  (decide (l ≠ "")) && l.data.all (fun c => c.isLower)

/-- The two construction-level misuses the spec makes hard failures: an empty
requested name, or a malformed language tag (spec section 7). -/
inductive ConstructionError where
  | emptyName
  | badLanguageTag
deriving DecidableEq

/-- Modelled from the spec: the validated batch entry point - construction
misuse is rejected up front; any other input always yields a ResolutionResult
(spec section 7). -/
def resolve_batch_checked (svc : Query → ClientOutcome) (names fallbacks : List String) :
    Except ConstructionError ResolutionResult :=
  if names.any (fun n => n == "") then
    Except.error ConstructionError.emptyName
  else if (defaultLang :: fallbacks).all validLangTag then
    Except.ok (resolve_batch svc names fallbacks)
  else
    Except.error ConstructionError.badLanguageTag

/-- A raw row for a painter whose canonical label exists only in French: used
to exercise the language-fallback round. -/
def frRow : Row :=
  { person := some "Q999"
    personLabel := "Peintre Francais"
    placeOfBirthLabel := some "Paris"
    dateOfBirth := some "1850-01-01T00:00:00Z"
    dateOfDeath := none
    placeOfDeathLabel := none
    genderLabel := none
    citizenshipLabel := some "France"
    occupationLabel := some "painter"
    workLocationLabel := none
    startTime := none
    endTime := none
    pointInTime := none }

/-- The record the fallback round builds for the French-only painter. -/
def frRec : EntityRecord :=
  { name := "French Painter"
    id := some "Q999"
    birth_place := some "Paris"
    death_place := none
    birth_date := some "1850-01-01T00:00:00Z"
    death_date := none
    gender := none
    citizenship := some "France"
    occupation := ["painter"]
    work_locations := [] }

/-- A deterministic service stub that answers only per-entity queries in
French: batch queries and every other language yield no rows. -/
def stubFr : Query → ClientOutcome
  | Query.batch _ _ => ClientOutcome.rows []
  | Query.single _ lang => if lang == "fr" then ClientOutcome.rows [frRow] else ClientOutcome.rows []

/-- A raw row for a painter the per-entity retry round can resolve. -/
def knownRow : Row :=
  { person := some "Q100"
    personLabel := "Known Painter"
    placeOfBirthLabel := some "Leiden"
    dateOfBirth := some "1606-07-15T00:00:00Z"
    dateOfDeath := some "1669-10-04T00:00:00Z"
    placeOfDeathLabel := some "Amsterdam"
    genderLabel := some "male"
    citizenshipLabel := none
    occupationLabel := some "painter"
    workLocationLabel := some "Amsterdam"
    startTime := some "1623-01-01T00:00:00Z"
    endTime := some "1625-01-01T00:00:00Z"
    pointInTime := none }

/-- A deterministic service stub whose batch query fails transiently while the
default-language per-entity query answers for the known painter only. -/
def stubKnown : Query → ClientOutcome
  | Query.batch _ _ => ClientOutcome.transient
  | Query.single n lang =>
      if n == "Known Painter" && lang == "en" then ClientOutcome.rows [knownRow]
      else ClientOutcome.rows []

/-- A raw row for the entity labelled with the canonical long name, matched by
the short query string. -/
def vanGoghRow : Row :=
  { person := some "Q5582"
    personLabel := "Vincent van Gogh"
    placeOfBirthLabel := some "Zundert"
    dateOfBirth := some "1853-03-30T00:00:00Z"
    dateOfDeath := some "1890-07-29T00:00:00Z"
    placeOfDeathLabel := some "Auvers-sur-Oise"
    genderLabel := some "male"
    citizenshipLabel := some "Kingdom of the Netherlands"
    occupationLabel := some "painter"
    workLocationLabel := none
    startTime := none
    endTime := none
    pointInTime := none }

/-- The record the single-name path builds for the Van Gogh query: every field
from the row, the name from the request string. -/
def vanGoghRec : EntityRecord :=
  { name := "Van Gogh"
    id := some "Q5582"
    birth_place := some "Zundert"
    death_place := some "Auvers-sur-Oise"
    birth_date := some "1853-03-30T00:00:00Z"
    death_date := some "1890-07-29T00:00:00Z"
    gender := some "male"
    citizenship := some "Kingdom of the Netherlands"
    occupation := ["painter"]
    work_locations := [] }

/-- A deterministic service stub answering every per-entity query with the
Van Gogh row. -/
def stubVG : Query → ClientOutcome
  | Query.batch _ _ => ClientOutcome.rows []
  | Query.single _ _ => ClientOutcome.rows [vanGoghRow]

/-- First work-location row for Paris, carrying one residency interval. -/
def parisRow1 : Row :=
  { person := some "Q5582"
    personLabel := "Vincent van Gogh"
    placeOfBirthLabel := some "Zundert"
    dateOfBirth := some "1853-03-30T00:00:00Z"
    dateOfDeath := some "1890-07-29T00:00:00Z"
    placeOfDeathLabel := some "Auvers-sur-Oise"
    genderLabel := some "male"
    citizenshipLabel := some "Kingdom of the Netherlands"
    occupationLabel := some "painter"
    workLocationLabel := some "Paris"
    startTime := some "1875-01-01T00:00:00Z"
    endTime := some "1876-01-01T00:00:00Z"
    pointInTime := none }

/-- Second work-location row for Paris, same label, disjoint interval. -/
def parisRow2 : Row :=
  { parisRow1 with
    startTime := some "1886-02-28T00:00:00Z"
    endTime := some "1888-02-19T00:00:00Z" }

/-- A record holding the two The Hague residency intervals of the README's
recorded output, in row order. -/
def theHagueRec : EntityRecord :=
  { name := "Van Gogh"
    id := none
    birth_place := none
    death_place := none
    birth_date := none
    death_date := none
    gender := none
    citizenship := none
    occupation := []
    work_locations :=
      [⟨"The Hague", some "1881-12-01T00:00:00Z", some "1883-09-01T00:00:00Z", none⟩,
       ⟨"The Hague", some "1869-01-01T00:00:00Z", some "1873-05-01T00:00:00Z", none⟩] }

/-- A name containing embedded quote characters, the input the escaping
contract exists for. -/
def pearlName : String := "Girl with a \"Pearl\" Earring"

/-- ciEq holds exactly when the lowercase forms coincide. -/
theorem ciEq_eq {a b : String} : ciEq a b = true ↔ a.toLower = b.toLower := by
  simp [ciEq]

/-- ciEq is reflexive. -/
theorem ciEq_refl (a : String) : ciEq a a = true := ciEq_eq.mpr rfl

/-- ciEq is symmetric. -/
theorem ciEq_symm {a b : String} (h : ciEq a b = true) : ciEq b a = true :=
  ciEq_eq.mpr (ciEq_eq.mp h).symm

/-- ciEq is transitive. -/
theorem ciEq_trans {a b c : String} (h1 : ciEq a b = true) (h2 : ciEq b c = true) :
    ciEq a c = true :=
  ciEq_eq.mpr ((ciEq_eq.mp h1).trans (ciEq_eq.mp h2))

/-- A failed ciEq test means the lowercase forms differ. -/
theorem ciEq_false {a b : String} (h : ciEq a b = false) : a.toLower ≠ b.toLower := by
  intro he
  have ht := ciEq_eq.mpr he
  rw [h] at ht
  exact Bool.noConfusion ht

/-- Splitting a conjunction of boolean filters into two passes. -/
theorem filter_and_eq {α : Type} (p q : α → Bool) (l : List α) :
    l.filter (fun a => p a && q a) = (l.filter p).filter q := by
  rw [List.filter_filter]
  exact List.filter_congr fun a _ => Bool.and_comm (p a) (q a)

/-- dedupFirst commutes with filtering: removing elements uniformly keeps the
same first occurrences of the remaining elements. -/
theorem dedupFirst_filter (p : String → Bool) (l : List String) :
    dedupFirst (l.filter p) = (dedupFirst l).filter p := by
  induction l with
  | nil => rfl
  | cons x t ih =>
      by_cases hx : p x = true
      · rw [List.filter_cons, if_pos hx]
        rw [dedupFirst, dedupFirst, List.filter_cons, if_pos hx, ih]
        rw [← filter_and_eq, ← filter_and_eq]
        exact congrArg _ (List.filter_congr fun a _ => Bool.and_comm _ _)
      · rw [List.filter_cons, if_neg hx, ih, dedupFirst, List.filter_cons, if_neg hx]
        rw [← filter_and_eq]
        refine (List.filter_congr fun a _ => ?_).symm
        by_cases ha : a = x
        · subst ha
          simp [hx]
        · simp [ha]

/-- The accumulator loop computes first-occurrence deduplication of the
not-yet-listed elements, appended after the accumulator. -/
theorem dedupAcc_eq (l : List String) : ∀ acc : List String,
    dedupAcc acc l = acc ++ dedupFirst (l.filter (fun y => y ∉ acc)) := by
  induction l with
  | nil => intro acc; simp [dedupAcc, dedupFirst]
  | cons x t ih =>
      intro acc
      by_cases hx : x ∈ acc
      · rw [dedupAcc, if_pos hx, ih acc, List.filter_cons]
        simp [hx]
      · rw [dedupAcc, if_neg hx, ih (acc ++ [x]), List.filter_cons, if_pos (by simpa using hx)]
        have hfilters : t.filter (fun y => y ∉ acc ++ [x])
            = (t.filter (fun y => y ∉ acc)).filter (fun y => y ≠ x) := by
          rw [← filter_and_eq]
          refine List.filter_congr fun a _ => ?_
          by_cases hax : a = x
          · subst hax; simp
          · by_cases haa : a ∈ acc <;> simp [hax, haa]
        rw [hfilters,
          show dedupFirst (x :: t.filter (fun y => y ∉ acc))
              = x :: (dedupFirst (t.filter (fun y => y ∉ acc))).filter (fun y => y ≠ x) from rfl,
          dedupFirst_filter, List.append_assoc]
        rfl

/-- Elements of dedupFirst come from the original list and conversely. -/
theorem mem_dedupFirst {l : List String} {a : String} :
    a ∈ dedupFirst l ↔ a ∈ l := by
  induction l with
  | nil => simp [dedupFirst]
  | cons x t ih =>
      rw [dedupFirst]
      constructor
      · intro h
        rcases List.mem_cons.mp h with h | h
        · exact h ▸ List.mem_cons_self _ _
        · exact List.mem_cons_of_mem _ (ih.mp (List.mem_of_mem_filter h))
      · intro h
        rcases List.mem_cons.mp h with h | h
        · exact h ▸ List.mem_cons_self _ _
        · by_cases hax : a = x
          · exact hax ▸ List.mem_cons_self _ _
          · exact List.mem_cons_of_mem _
              (List.mem_filter.mpr ⟨ih.mpr h, by simp [hax]⟩)

/-- dedupFirst yields a duplicate-free list. -/
theorem dedupFirst_nodup (l : List String) : (dedupFirst l).Nodup := by
  induction l with
  | nil => simp [dedupFirst]
  | cons x t ih =>
      rw [dedupFirst, List.nodup_cons]
      constructor
      · intro hx
        have := (List.mem_filter.mp hx).2
        simp at this
      · exact List.Nodup.filter _ ih

/-- dedupFirst preserves the order of the original list. -/
theorem dedupFirst_sublist (l : List String) : (dedupFirst l).Sublist l := by
  induction l with
  | nil => simp [dedupFirst]
  | cons x t ih =>
      rw [dedupFirst]
      exact List.Sublist.cons₂ x (((dedupFirst t).filter_sublist).trans ih)

/-- The case-insensitive dedup loop appends a subsequence of its input after
the accumulator. -/
theorem dedupCIAcc_split (l : List String) : ∀ acc : List String,
    ∃ t, dedupCIAcc acc l = acc ++ t ∧ t.Sublist l := by
  induction l with
  | nil => intro acc; exact ⟨[], by simp [dedupCIAcc]⟩
  | cons n t ih =>
      intro acc
      by_cases h : (acc.any (fun m => ciEq m n)) = true
      · obtain ⟨s, hs, hsub⟩ := ih acc
        exact ⟨s, by rw [dedupCIAcc, if_pos h, hs], hsub.cons n⟩
      · obtain ⟨s, hs, hsub⟩ := ih (acc ++ [n])
        refine ⟨n :: s, ?_, hsub.cons₂ n⟩
        rw [dedupCIAcc, if_neg h, hs, List.append_assoc]
        rfl

/-- Every requested name has a case-insensitive representative in the deduped
list; accumulator entries survive. -/
theorem dedupCIAcc_covers (l : List String) : ∀ acc : List String,
    (∀ a ∈ acc, a ∈ dedupCIAcc acc l)
    ∧ ∀ n ∈ l, ∃ d ∈ dedupCIAcc acc l, ciEq d n = true := by
  induction l with
  | nil => intro acc; exact ⟨fun a ha => by simpa [dedupCIAcc] using ha, by simp⟩
  | cons n t ih =>
      intro acc
      by_cases h : (acc.any (fun m => ciEq m n)) = true
      · rw [dedupCIAcc, if_pos h]
        refine ⟨(ih acc).1, ?_⟩
        intro m hm
        rcases List.mem_cons.mp hm with hm | hm
        · obtain ⟨d, hd, hci⟩ := List.any_eq_true.mp h
          exact ⟨d, (ih acc).1 d hd, hm ▸ hci⟩
        · exact (ih acc).2 m hm
      · rw [dedupCIAcc, if_neg h]
        have hmem : ∀ a ∈ acc ++ [n], a ∈ dedupCIAcc (acc ++ [n]) t := (ih (acc ++ [n])).1
        refine ⟨fun a ha => hmem a (List.mem_append.mpr (Or.inl ha)), ?_⟩
        intro m hm
        rcases List.mem_cons.mp hm with hm | hm
        · exact ⟨n, hmem n (List.mem_append.mpr (Or.inr (List.mem_singleton.mpr rfl))),
            hm ▸ ciEq_refl n⟩
        · exact (ih (acc ++ [n])).2 m hm

/-- No two entries of the deduped list match case-insensitively. -/
theorem dedupCIAcc_pairwise (l : List String) : ∀ acc : List String,
    List.Pairwise (fun a b => ciEq a b = false) acc →
    List.Pairwise (fun a b => ciEq a b = false) (dedupCIAcc acc l) := by
  induction l with
  | nil => intro acc hacc; simpa [dedupCIAcc] using hacc
  | cons n t ih =>
      intro acc hacc
      by_cases h : (acc.any (fun m => ciEq m n)) = true
      · rw [dedupCIAcc, if_pos h]
        exact ih acc hacc
      · rw [dedupCIAcc, if_neg h]
        refine ih (acc ++ [n]) ?_
        rw [List.pairwise_append]
        refine ⟨hacc, List.pairwise_singleton _ _, ?_⟩
        intro a ha b hb
        rw [List.mem_singleton.mp hb]
        have hall := List.any_eq_false.mp (Bool.eq_false_iff.mpr h)
        exact Bool.eq_false_iff.mpr (hall a ha)

/-- The distinct request list is a subsequence of the request batch. -/
theorem dedupCI_sublist (names : List String) : (dedupCI names).Sublist names := by
  obtain ⟨t, ht, hsub⟩ := dedupCIAcc_split names []
  rw [dedupCI, ht]
  simpa using hsub

/-- Every name of the batch has a case-insensitive representative among the
distinct request names. -/
theorem dedupCI_covers {names : List String} {n : String} (h : n ∈ names) :
    ∃ d ∈ dedupCI names, ciEq d n = true :=
  (dedupCIAcc_covers names []).2 n h

/-- Distinct request names are pairwise non-matching case-insensitively. -/
theorem dedupCI_pairwise (names : List String) :
    List.Pairwise (fun a b => ciEq a b = false) (dedupCI names) :=
  dedupCIAcc_pairwise names [] (List.Pairwise.nil)

/-- A per-entity query's record carries the requested name itself. -/
theorem singleQuery_name {svc : Query → ClientOutcome} {n lang : String}
    {r : EntityRecord} (h : singleQuery svc n lang = some r) : r.name = n := by
  unfold singleQuery at h
  split at h
  · unfold create_person_info_from_results at h
    split at h
    · exact Option.noConfusion h
    · cases Option.some.inj h
      rfl
  · exact Option.noConfusion h

/-- A language-fallback record carries the requested name itself. -/
theorem tryLangs_name {svc : Query → ClientOutcome} {n : String} {r : EntityRecord} :
    ∀ {langs : List String}, tryLangs svc n langs = some r → r.name = n := by
  intro langs
  induction langs with
  | nil => intro h; exact Option.noConfusion h
  | cons l ls ih =>
      intro h
      rw [tryLangs] at h
      cases hq : singleQuery svc n l with
      | some q => rw [hq] at h; exact singleQuery_name (hq.trans h)
      | none => rw [hq] at h; exact ih h

/-- A batch-round match is case-insensitively equal to the requested name. -/
theorem round1Outcome_ci {svc : Query → ClientOutcome} {names : List String}
    {n : String} {r : EntityRecord} (h : round1Outcome svc names n = some r) :
    ciEq r.name n = true := by
  unfold round1Outcome at h
  have hp := List.find?_some h
  simpa using hp

/-- Whatever round produced it, a name's final record matches the name
case-insensitively. -/
theorem finalOutcome_ci {svc : Query → ClientOutcome} {names fallbacks : List String}
    {n : String} {r : EntityRecord}
    (h : finalOutcome svc names fallbacks n = some r) : ciEq r.name n = true := by
  unfold finalOutcome at h
  cases h1 : round1Outcome svc names n with
  | some q => rw [h1] at h; exact (Option.some.inj h) ▸ round1Outcome_ci h1
  | none =>
      rw [h1] at h
      cases h2 : singleQuery svc n defaultLang with
      | some q =>
          rw [h2] at h
          rw [← Option.some.inj h, singleQuery_name h2]
          exact ciEq_refl n
      | none =>
          rw [h2] at h
          rw [tryLangs_name h]
          exact ciEq_refl n

/-- The three staged rounds compute, name by name in distinct-request order,
exactly the per-name cascade `finalOutcome`. -/
theorem rounds_eq_finalOutcome (svc : Query → ClientOutcome) (names fallbacks : List String) :
    round3 svc fallbacks (round2 svc (round1 svc names))
      = (dedupCI names).map (fun n => (n, finalOutcome svc names fallbacks n)) := by
  rw [round1, round2, round3, List.map_map, List.map_map]
  refine List.map_congr_left fun n _ => ?_
  simp only [Function.comp]
  cases h1 : round1Outcome svc names n with
  | some r => simp [finalOutcome, h1]
  | none =>
      cases h2 : singleQuery svc n defaultLang with
      | some r => simp [finalOutcome, h1, h2]
      | none => simp [finalOutcome, h1, h2]

/-- resolve_batch, unrolled: resolved is the per-name cascade filtered over the
distinct request names in order; unresolved is the names whose cascade ends
empty, in order. -/
theorem resolve_batch_eq_spec (svc : Query → ClientOutcome) (names fallbacks : List String) :
    resolve_batch svc names fallbacks =
      { resolved := (dedupCI names).filterMap (finalOutcome svc names fallbacks)
        unresolved :=
          (dedupCI names).filter (fun n => (finalOutcome svc names fallbacks n).isNone) } := by
  unfold resolve_batch
  rw [rounds_eq_finalOutcome svc names fallbacks]
  simp only [List.filterMap_map, List.filter_map, List.map_map]
  congr 1
  show List.map (fun n => n)
      ((dedupCI names).filter (fun n => (finalOutcome svc names fallbacks n).isNone)) = _
  rw [show (fun n : String => n) = id from rfl, List.map_id]

/-- Splitting a list by whether an optional-valued function hits: hits and misses
count up to the whole list. -/
theorem length_filterMap_add_filter_none {α β : Type} (f : α → Option β) (l : List α) :
    (l.filterMap f).length + (l.filter (fun a => (f a).isNone)).length = l.length := by
  induction l with
  | nil => rfl
  | cons a t ih =>
      cases h : f a <;>
        simp [List.filterMap_cons, List.filter_cons, h, Nat.succ_eq_add_one] <;>
        omega

/-- A transient per-entity outcome and an empty row set produce the same
per-entity result: no data this round. -/
theorem singleQuery_degrade (svc : Query → ClientOutcome) (n lang : String) :
    singleQuery (degrade svc) n lang = singleQuery svc n lang := by
  unfold singleQuery degrade
  cases svc (Query.single n lang) <;> rfl

/-- A transient batch outcome and an empty row set produce the same candidate
set: none. -/
theorem batchCandidates_degrade (svc : Query → ClientOutcome) (names : List String) :
    batchCandidates (degrade svc) names = batchCandidates svc names := by
  unfold batchCandidates degrade
  cases svc (Query.batch names defaultLang) <;> rfl

/-- The language-fallback cascade cannot tell a transient failure from an
empty answer. -/
theorem tryLangs_degrade (svc : Query → ClientOutcome) (n : String) :
    ∀ langs : List String, tryLangs (degrade svc) n langs = tryLangs svc n langs := by
  intro langs
  induction langs with
  | nil => rfl
  | cons l ls ih =>
      rw [tryLangs, tryLangs, singleQuery_degrade, ih]

/-- A name's whole cascade cannot tell a transient failure from an empty
answer in any round. -/
theorem finalOutcome_degrade (svc : Query → ClientOutcome) (names fallbacks : List String)
    (n : String) :
    finalOutcome (degrade svc) names fallbacks n = finalOutcome svc names fallbacks n := by
  unfold finalOutcome round1Outcome
  rw [batchCandidates_degrade, singleQuery_degrade, tryLangs_degrade]

/-- The quote-for-quote replace of the README template changes nothing. -/
theorem pyReplaceChar_quote_id : ∀ l : List Char, pyReplaceChar l '"' ['"'] = l := by
  intro l
  induction l with
  | nil => rfl
  | cons c t ih =>
      by_cases hc : c = '"'
      · subst hc
        show '"' :: pyReplaceChar t '"' ['"'] = _
        rw [ih]
      · show (if c = '"' then _ else c :: pyReplaceChar t '"' ['"']) = _
        rw [if_neg hc, ih]

/-- C6 (code bug in the source's query template): the README documents that
person_name.replace of a quote by a backslash-quote Python literal escapes
quote characters, but that literal denotes a plain quote, so the replacement
is the identity on every name: the embedded literal for a quoted name is not
well-formed, the quote and backslash escaping the contract requires never
happens, and the produced clause carries the raw quotes. -/
theorem query_name_escaping_is_identity :
    (∀ s : String, escape_person_name s = s)
    ∧ escape_person_name pearlName = pearlName
    ∧ okLit (escape_person_name pearlName).data = false
    ∧ okLit (specEscape pearlName).data = true
    ∧ person_label_clause pearlName "en"
        = "?person ?label \"Girl with a \"Pearl\" Earring\"@en." := by
  have hid : ∀ s : String, escape_person_name s = s := by
    intro s
    cases s with
    | mk data => rw [escape_person_name, pyReplaceChar_quote_id]
  refine ⟨hid, hid pearlName, by decide, by decide, ?_⟩
  rw [person_label_clause, hid pearlName]
  decide

/-- C5: in the Row Aggregator, two work-location rows of one entity each become
their own WorkLocationEntry, in row order, even when the location label is the
same - entries are appended, never merged. -/
theorem work_location_rows_not_merged (r1 r2 : Row) (l1 l2 : String)
    (hk : entityKey r2 = entityKey r1)
    (h1 : r1.workLocationLabel = some l1) (h2 : r2.workLocationLabel = some l2) :
    ∃ rec, aggregateRows [r1, r2] = [rec]
      ∧ rec.work_locations =
          [⟨l1, r1.startTime, r1.endTime, r1.pointInTime⟩,
           ⟨l2, r2.startTime, r2.endTime, r2.pointInTime⟩] := by
  refine ⟨addRow (newRecord r1) r2, ?_, ?_⟩
  · show ((List.foldl aggStep [] [r1, r2]).map Prod.snd) = _
    rw [List.foldl_cons, List.foldl_cons, List.foldl_nil]
    rw [show aggStep [] r1 = [(entityKey r1, newRecord r1)] from by simp [aggStep]]
    rw [show aggStep [(entityKey r1, newRecord r1)] r2
        = [(entityKey r1, addRow (newRecord r1) r2)] from by simp [aggStep, hk]]
    rfl
  · rw [show (addRow (newRecord r1) r2).work_locations
        = (newRecord r1).work_locations
            ++ [⟨l2, r2.startTime, r2.endTime, r2.pointInTime⟩] from by
      simp [addRow, h2]]
    rw [show (newRecord r1).work_locations
        = [⟨l1, r1.startTime, r1.endTime, r1.pointInTime⟩] from by
      simp [newRecord, h1]]
    rfl

/-- Witness for C5: the two Paris rows with disjoint intervals yield a single
record with two separate Paris entries. -/
theorem work_location_rows_not_merged_witness :
    entityKey parisRow2 = entityKey parisRow1
    ∧ parisRow1.workLocationLabel = some "Paris"
    ∧ parisRow2.workLocationLabel = some "Paris"
    ∧ ∃ rec, aggregateRows [parisRow1, parisRow2] = [rec]
        ∧ rec.work_locations =
            [⟨"Paris", some "1875-01-01T00:00:00Z", some "1876-01-01T00:00:00Z", none⟩,
             ⟨"Paris", some "1886-02-28T00:00:00Z", some "1888-02-19T00:00:00Z", none⟩] :=
  ⟨rfl, rfl, rfl,
    work_location_rows_not_merged parisRow1 parisRow2 "Paris" "Paris" rfl rfl rfl⟩

/-- Counterexample for C7: the README's recorded The Hague intervals come out
of collapse_intervals in encounter order, 1881-1883 before 1869-1873, so the
segments are not sorted by start year ascending, and the rendered range string
of get_places_with_years_from_response shows exactly that order. -/
theorem collapse_intervals_not_sorted_counterexample :
    collapse_intervals [(1881, 1883), (1869, 1873)] = [(1881, 1883), (1869, 1873)]
    ∧ ascendingStarts (collapse_intervals [(1881, 1883), (1869, 1873)]) = false
    ∧ get_places_with_years_from_response theHagueRec = ["The Hague:1881-1883,1869-1873"] := by
  refine ⟨by decide, by decide, by decide⟩

/-- An interval that overlaps or abuts no collected segment is appended after
all of them: a fresh place in time shows up at the end, in encounter order. -/
theorem addInterval_all_disjoint :
    ∀ acc : List (Nat × Nat), ∀ iv : Nat × Nat,
      (∀ x ∈ acc, overlapsOrAdjacent x iv = false) →
      addInterval acc iv = acc ++ [iv] := by
  intro acc
  induction acc with
  | nil => intro iv _; rfl
  | cons c rest ih =>
      intro iv h
      have hc : overlapsOrAdjacent c iv = false := h c (List.mem_cons_self c rest)
      rw [addInterval, if_neg (by simp [hc]),
        ih iv fun x hx => h x (List.mem_cons_of_mem c hx)]
      rfl

/-- An interval merges, in place, into the first collected segment it overlaps
or abuts; every other segment keeps its position. -/
theorem addInterval_first_touch :
    ∀ acc1 : List (Nat × Nat), ∀ c iv : Nat × Nat, ∀ acc2 : List (Nat × Nat),
      (∀ x ∈ acc1, overlapsOrAdjacent x iv = false) →
      overlapsOrAdjacent c iv = true →
      addInterval (acc1 ++ c :: acc2) iv
        = acc1 ++ (min c.1 iv.1, max c.2 iv.2) :: acc2 := by
  intro acc1
  induction acc1 with
  | nil =>
      intro c iv acc2 _ hc
      rw [List.nil_append, addInterval, if_pos hc, List.nil_append]
  | cons x rest ih =>
      intro c iv acc2 h hc
      have hx : overlapsOrAdjacent x iv = false := h x (List.mem_cons_self x rest)
      rw [List.cons_append, addInterval, if_neg (by simp [hx]),
        ih c iv acc2 (fun y hy => h y (List.mem_cons_of_mem x hy)) hc]
      rfl

/-- Collected segments only widen: whatever a segment covered before a merge
step, some segment covers afterwards. -/
theorem addInterval_covers_old :
    ∀ acc : List (Nat × Nat), ∀ iv s : Nat × Nat, s ∈ acc →
      ∃ t ∈ addInterval acc iv, t.1 ≤ s.1 ∧ s.2 ≤ t.2 := by
  intro acc
  induction acc with
  | nil => intro iv s hs; exact absurd hs (List.not_mem_nil s)
  | cons c rest ih =>
      intro iv s hs
      by_cases hc : overlapsOrAdjacent c iv = true
      · rw [addInterval, if_pos hc]
        rcases List.mem_cons.mp hs with hs | hs
        · subst hs
          exact ⟨(min s.1 iv.1, max s.2 iv.2), List.mem_cons_self _ _,
            min_le_left _ _, le_max_left _ _⟩
        · exact ⟨s, List.mem_cons_of_mem _ hs, le_refl _, le_refl _⟩
      · rw [addInterval, if_neg hc]
        rcases List.mem_cons.mp hs with hs | hs
        · subst hs
          exact ⟨s, List.mem_cons_self _ _, le_refl _, le_refl _⟩
        · obtain ⟨t, ht, h1, h2⟩ := ih iv s hs
          exact ⟨t, List.mem_cons_of_mem _ ht, h1, h2⟩

/-- After a merge step, the new interval itself lies inside some segment. -/
theorem addInterval_covers_new :
    ∀ acc : List (Nat × Nat), ∀ iv : Nat × Nat,
      ∃ t ∈ addInterval acc iv, t.1 ≤ iv.1 ∧ iv.2 ≤ t.2 := by
  intro acc
  induction acc with
  | nil => intro iv; exact ⟨iv, List.mem_singleton.mpr rfl, le_refl _, le_refl _⟩
  | cons c rest ih =>
      intro iv
      by_cases hc : overlapsOrAdjacent c iv = true
      · rw [addInterval, if_pos hc]
        exact ⟨(min c.1 iv.1, max c.2 iv.2), List.mem_cons_self _ _,
          min_le_right _ _, le_max_right _ _⟩
      · rw [addInterval, if_neg hc]
        obtain ⟨t, ht, h1, h2⟩ := ih iv
        exact ⟨t, List.mem_cons_of_mem _ ht, h1, h2⟩

/-- Folding further intervals never uncovers a covered interval. -/
theorem foldl_addInterval_covers :
    ∀ ivs acc : List (Nat × Nat), ∀ x : Nat × Nat,
      (∃ s ∈ acc, s.1 ≤ x.1 ∧ x.2 ≤ s.2) →
      ∃ t ∈ List.foldl addInterval acc ivs, t.1 ≤ x.1 ∧ x.2 ≤ t.2 := by
  intro ivs
  induction ivs with
  | nil => intro acc x h; simpa using h
  | cons iv rest ih =>
      intro acc x h
      obtain ⟨s, hs, hs1, hs2⟩ := h
      obtain ⟨t, ht, ht1, ht2⟩ := addInterval_covers_old acc iv s hs
      exact ih (addInterval acc iv) x ⟨t, ht, le_trans ht1 hs1, le_trans hs2 ht2⟩

/-- Merging absorbs every entry: each (start, end) pair of the input lies
inside some output segment of collapse_intervals. -/
theorem collapse_intervals_covers :
    ∀ ivs : List (Nat × Nat), ∀ iv ∈ ivs,
      ∃ t ∈ collapse_intervals ivs, t.1 ≤ iv.1 ∧ iv.2 ≤ t.2 := by
  have main : ∀ ivs acc : List (Nat × Nat), ∀ iv ∈ ivs,
      ∃ t ∈ List.foldl addInterval acc ivs, t.1 ≤ iv.1 ∧ iv.2 ≤ t.2 := by
    intro ivs
    induction ivs with
    | nil => intro acc iv hiv; exact absurd hiv (List.not_mem_nil iv)
    | cons x rest ih =>
        intro acc iv hiv
        rcases List.mem_cons.mp hiv with hiv | hiv
        · subst hiv
          exact foldl_addInterval_covers rest (addInterval acc iv) iv
            (addInterval_covers_new acc iv)
        · exact ih (addInterval acc x) iv hiv
  intro ivs iv hiv
  exact main ivs [] iv hiv

/-- A merge step keeps segment endpoints inside given endpoint predicates. -/
theorem addInterval_endpoints (Q R : Nat → Prop) :
    ∀ acc : List (Nat × Nat), ∀ iv : Nat × Nat,
      (∀ seg ∈ acc, Q seg.1 ∧ R seg.2) → Q iv.1 → R iv.2 →
      ∀ seg ∈ addInterval acc iv, Q seg.1 ∧ R seg.2 := by
  intro acc
  induction acc with
  | nil =>
      intro iv _ hq hr seg hseg
      rw [show addInterval [] iv = [iv] from rfl] at hseg
      rw [List.mem_singleton.mp hseg]
      exact ⟨hq, hr⟩
  | cons c rest ih =>
      intro iv h hq hr seg hseg
      by_cases hc : overlapsOrAdjacent c iv = true
      · rw [addInterval, if_pos hc] at hseg
        rcases List.mem_cons.mp hseg with hseg | hseg
        · subst hseg
          refine ⟨?_, ?_⟩
          · show Q (min c.1 iv.1)
            rcases min_choice c.1 iv.1 with hm | hm
            · rw [hm]; exact (h c (List.mem_cons_self c rest)).1
            · rw [hm]; exact hq
          · show R (max c.2 iv.2)
            rcases max_choice c.2 iv.2 with hm | hm
            · rw [hm]; exact (h c (List.mem_cons_self c rest)).2
            · rw [hm]; exact hr
        · exact h seg (List.mem_cons_of_mem c hseg)
      · rw [addInterval, if_neg hc] at hseg
        rcases List.mem_cons.mp hseg with hseg | hseg
        · subst hseg
          exact h seg (List.mem_cons_self seg rest)
        · exact ih iv (fun s hs => h s (List.mem_cons_of_mem c hs)) hq hr seg hseg

/-- Folding a list of intervals keeps segment endpoints inside given endpoint
predicates. -/
theorem foldl_addInterval_endpoints (Q R : Nat → Prop) :
    ∀ ivs acc : List (Nat × Nat),
      (∀ seg ∈ acc, Q seg.1 ∧ R seg.2) → (∀ iv ∈ ivs, Q iv.1 ∧ R iv.2) →
      ∀ seg ∈ List.foldl addInterval acc ivs, Q seg.1 ∧ R seg.2 := by
  intro ivs
  induction ivs with
  | nil => intro acc hacc _ seg hseg; exact hacc seg hseg
  | cons iv rest ih =>
      intro acc hacc hivs seg hseg
      refine ih (addInterval acc iv) ?_
        (fun x hx => hivs x (List.mem_cons_of_mem iv hx)) seg hseg
      exact addInterval_endpoints Q R acc iv hacc
        (hivs iv (List.mem_cons_self iv rest)).1
        (hivs iv (List.mem_cons_self iv rest)).2

/-- Segments are compact combinations of the entries: every output segment
starts at some entry's start and ends at some entry's end. -/
theorem collapse_intervals_endpoints :
    ∀ ivs : List (Nat × Nat), ∀ seg ∈ collapse_intervals ivs,
      (∃ iv ∈ ivs, iv.1 = seg.1) ∧ ∃ iv ∈ ivs, iv.2 = seg.2 := by
  intro ivs seg hseg
  exact foldl_addInterval_endpoints (fun n => ∃ iv ∈ ivs, iv.1 = n)
    (fun n => ∃ iv ∈ ivs, iv.2 = n) ivs []
    (fun s hs => absurd hs (List.not_mem_nil s))
    (fun iv hiv => ⟨⟨iv, hiv, rfl⟩, ⟨iv, hiv, rfl⟩⟩) seg hseg

/-- Pairwise disjoint intervals fold to themselves: each one is appended in
turn, so the collected segments are exactly the input in encounter order. -/
theorem foldl_addInterval_disjoint :
    ∀ ivs acc : List (Nat × Nat),
      (∀ c ∈ acc, ∀ x ∈ ivs, overlapsOrAdjacent c x = false) →
      List.Pairwise (fun a b => overlapsOrAdjacent a b = false) ivs →
      List.foldl addInterval acc ivs = acc ++ ivs := by
  intro ivs
  induction ivs with
  | nil => intro acc _ _; simp
  | cons iv rest ih =>
      intro acc h hp
      have h1 : addInterval acc iv = acc ++ [iv] :=
        addInterval_all_disjoint acc iv fun x hx => h x hx iv (List.mem_cons_self iv rest)
      show List.foldl addInterval (addInterval acc iv) rest = acc ++ iv :: rest
      rw [h1, ih (acc ++ [iv]) ?hyp (List.pairwise_cons.mp hp).2, List.append_assoc]
      · rfl
      case hyp =>
        intro c hc x hx
        rcases List.mem_append.mp hc with hc | hc
        · exact h c hc x (List.mem_cons_of_mem iv hx)
        · rw [List.mem_singleton.mp hc]
          exact (List.pairwise_cons.mp hp).1 x hx

/-- Over a pairwise disjoint entry list of any length, collapse_intervals is
the identity: the segments come out exactly in first-encounter order, which
in general is not ascending in start year. -/
theorem collapse_intervals_disjoint_id :
    ∀ ivs : List (Nat × Nat),
      List.Pairwise (fun a b => overlapsOrAdjacent a b = false) ivs →
      collapse_intervals ivs = ivs := by
  intro ivs hp
  have h := foldl_addInterval_disjoint ivs []
    (fun c hc => absurd hc (List.not_mem_nil c)) hp
  rw [collapse_intervals, h, List.nil_append]

/-- Each place of a record with at least one collapsed segment contributes, to
get_places_with_years_from_response, exactly the place name joined with the
range string of its collapsed segments. -/
theorem mem_get_places_with_years {rec : EntityRecord} {place : String}
    (hmem : place ∈ get_places_from_response rec)
    (hne : collapse_intervals (intervalsFor rec place) ≠ []) :
    place ++ ":" ++ rangeString (collapse_intervals (intervalsFor rec place))
      ∈ get_places_with_years_from_response rec := by
  rw [get_places_with_years_from_response]
  refine List.mem_filterMap.mpr ⟨place, hmem, ?_⟩
  cases hc : collapse_intervals (intervalsFor rec place) with
  | nil => exact absurd hc hne
  | cons a t => rfl

/-- C7 (amended): over every list of (start, end) interval entries,
collapse_intervals merges overlapping or adjacent pairs into compact segments:
every entry is absorbed into some segment, every segment's endpoints come from
the entries, an entry merges in place into the first segment it touches, and
an entry touching no segment is appended after all of them - so segments
appear in first-encounter (row) order; in particular a pairwise disjoint entry
list of any length comes out exactly in encounter order, not sorted by start
year ascending.  get_places_with_years_from_response exposes this per place as
the place name joined with the start-end[,start-end...] range string, whose
items follow the segment list in order. -/
theorem collapse_intervals_merge_encounter_order :
    (∀ ivs : List (Nat × Nat), ∀ iv ∈ ivs,
      ∃ t ∈ collapse_intervals ivs, t.1 ≤ iv.1 ∧ iv.2 ≤ t.2)
    ∧ (∀ ivs : List (Nat × Nat), ∀ seg ∈ collapse_intervals ivs,
      (∃ iv ∈ ivs, iv.1 = seg.1) ∧ ∃ iv ∈ ivs, iv.2 = seg.2)
    ∧ (∀ acc1 : List (Nat × Nat), ∀ c iv : Nat × Nat, ∀ acc2 : List (Nat × Nat),
      (∀ x ∈ acc1, overlapsOrAdjacent x iv = false) →
      overlapsOrAdjacent c iv = true →
      addInterval (acc1 ++ c :: acc2) iv
        = acc1 ++ (min c.1 iv.1, max c.2 iv.2) :: acc2)
    ∧ (∀ acc : List (Nat × Nat), ∀ iv : Nat × Nat,
      (∀ x ∈ acc, overlapsOrAdjacent x iv = false) →
      addInterval acc iv = acc ++ [iv])
    ∧ (∀ ivs : List (Nat × Nat),
      List.Pairwise (fun a b => overlapsOrAdjacent a b = false) ivs →
      collapse_intervals ivs = ivs)
    ∧ (∀ rec : EntityRecord, ∀ place : String,
      place ∈ get_places_from_response rec →
      collapse_intervals (intervalsFor rec place) ≠ [] →
      place ++ ":" ++ rangeString (collapse_intervals (intervalsFor rec place))
        ∈ get_places_with_years_from_response rec)
    ∧ ∀ p q : Nat × Nat, ∀ rest : List (Nat × Nat),
      rangeString (p :: q :: rest)
        = Nat.repr p.1 ++ "-" ++ Nat.repr p.2 ++ "," ++ rangeString (q :: rest) :=
  ⟨collapse_intervals_covers, collapse_intervals_endpoints, addInterval_first_touch,
    addInterval_all_disjoint, collapse_intervals_disjoint_id,
    fun _ _ hmem hne => mem_get_places_with_years hmem hne,
    fun _ _ _ => rfl⟩

/-- Witness for the amended C7: an overlapping pair merges in place, the
README's disjoint The Hague pair is appended and passes through in encounter
order, and the record's rendered place string is the place joined with the
segments' range string, equal to the README's recorded output. -/
theorem collapse_intervals_merge_encounter_order_witness :
    addInterval [(1869, 1873)] (1872, 1880) = [(1869, 1880)]
    ∧ addInterval [(1881, 1883)] (1869, 1873) = [(1881, 1883), (1869, 1873)]
    ∧ collapse_intervals [(1881, 1883), (1869, 1873)] = [(1881, 1883), (1869, 1873)]
    ∧ ("The Hague" ++ ":"
        ++ rangeString (collapse_intervals (intervalsFor theHagueRec "The Hague")))
        ∈ get_places_with_years_from_response theHagueRec
    ∧ ("The Hague" ++ ":"
        ++ rangeString (collapse_intervals (intervalsFor theHagueRec "The Hague")))
        = "The Hague:1881-1883,1869-1873" := by
  have T := collapse_intervals_merge_encounter_order
  refine ⟨?_, ?_, ?_, ?_, by decide⟩
  · have h := T.2.2.1 [] (1869, 1873) (1872, 1880) []
      (fun x hx => absurd hx (List.not_mem_nil x)) (by decide)
    exact h.trans (by decide)
  · have h := T.2.2.2.1 [(1881, 1883)] (1869, 1873) (by decide)
    exact h.trans (by decide)
  · exact T.2.2.2.2.1 [(1881, 1883), (1869, 1873)] (by decide)
  · exact T.2.2.2.2.2.1 theHagueRec "The Hague" (by decide) (by decide)

/-- C9: get_places_from_response returns the work-location labels with
duplicates removed, in first-occurrence order: it equals the reference
first-occurrence deduplication, is duplicate-free, is a subsequence of the
label sequence, and keeps exactly the labels that occur. -/
theorem get_places_from_response_first_occurrence_dedup (rec : EntityRecord) :
    get_places_from_response rec
        = dedupFirst (rec.work_locations.map WorkLocationEntry.location)
    ∧ (get_places_from_response rec).Nodup
    ∧ (get_places_from_response rec).Sublist
        (rec.work_locations.map WorkLocationEntry.location)
    ∧ ∀ x, x ∈ get_places_from_response rec
        ↔ x ∈ rec.work_locations.map WorkLocationEntry.location := by
  have heq : get_places_from_response rec
      = dedupFirst (rec.work_locations.map WorkLocationEntry.location) := by
    rw [get_places_from_response, dedupAcc_eq, List.nil_append]
    congr 1
    rw [List.filter_eq_self]
    intro a _
    simp
  refine ⟨heq, ?_, ?_, ?_⟩
  · rw [heq]; exact dedupFirst_nodup _
  · rw [heq]; exact dedupFirst_sublist _
  · intro x; rw [heq]; exact mem_dedupFirst

/-- C10: a successful single-name resolution returns a record whose name field
is the requested query string itself, not the entity's canonical label. -/
theorem get_all_person_info_name_is_query (svc : Query → ClientOutcome)
    (name : String) (rec : EntityRecord)
    (h : get_all_person_info svc name = some rec) : rec.name = name := by
  unfold get_all_person_info at h
  exact singleQuery_name h

/-- Witness for C10: querying Van Gogh against a stub whose canonical label is
Vincent van Gogh yields a record named Van Gogh. -/
theorem get_all_person_info_name_is_query_witness :
    get_all_person_info stubVG "Van Gogh" = some vanGoghRec
    ∧ vanGoghRec.name = "Van Gogh" :=
  ⟨by decide, get_all_person_info_name_is_query stubVG "Van Gogh" vanGoghRec (by decide)⟩

/-- C2: resolved records and unresolved names come out in original request
order - the result is exactly the per-name cascade outcome mapped over the
distinct request names, which are a subsequence of the request batch, so a
record's position depends only on its name's request position, never on the
round that produced it. -/
theorem resolve_batch_resolved_in_request_order (svc : Query → ClientOutcome)
    (names fallbacks : List String) :
    (resolve_batch svc names fallbacks).resolved
        = (dedupCI names).filterMap (finalOutcome svc names fallbacks)
    ∧ (resolve_batch svc names fallbacks).unresolved
        = (dedupCI names).filter (fun n => (finalOutcome svc names fallbacks n).isNone)
    ∧ (dedupCI names).Sublist names := by
  rw [resolve_batch_eq_spec]
  exact ⟨rfl, rfl, dedupCI_sublist names⟩

/-- C8: resolve_batch is a deterministic function of the batch and the
service's responses - two services answering every query identically give
identical results, so resolving the same batch twice against a stubbed,
deterministic service yields identical ResolutionResults. -/
theorem resolve_batch_deterministic (svc1 svc2 : Query → ClientOutcome)
    (names fallbacks : List String) (h : ∀ q, svc1 q = svc2 q) :
    resolve_batch svc1 names fallbacks = resolve_batch svc2 names fallbacks := by
  rw [funext h]

/-- Witness for C8: a second run of the stubbed service reproduces the first. -/
theorem resolve_batch_deterministic_witness :
    resolve_batch stubKnown ["Known Painter"] ["de"]
      = resolve_batch stubKnown ["Known Painter"] ["de"] :=
  resolve_batch_deterministic stubKnown stubKnown ["Known Painter"] ["de"] (fun _ => rfl)

/-- C3: with well-formed construction inputs the checked entry point always
returns Except.ok of a ResolutionResult, for every combination of per-name
service outcomes, and the whole pipeline is unchanged when every transient
failure is replaced by an empty answer - a transient error only ever acts as
no data this round for its own query, never as a batch failure. -/
theorem resolve_batch_total_transient_nonfatal (svc : Query → ClientOutcome)
    (names fallbacks : List String)
    (hn : ∀ n ∈ names, n ≠ "")
    (hl : ∀ l ∈ fallbacks, validLangTag l = true) :
    resolve_batch_checked svc names fallbacks
      = Except.ok (resolve_batch svc names fallbacks)
    ∧ resolve_batch svc names fallbacks = resolve_batch (degrade svc) names fallbacks := by
  constructor
  · have hany : (names.any (fun n => n == "")) = false := by
      rw [List.any_eq_false]
      intro x hx hcontra
      exact hn x hx (by simpa using hcontra)
    have hall : ((defaultLang :: fallbacks).all validLangTag) = true := by
      rw [List.all_eq_true]
      intro l hlm
      rcases List.mem_cons.mp hlm with h | h
      · rw [h]; decide
      · exact hl l h
    unfold resolve_batch_checked
    simp [hany, hall]
  · rw [resolve_batch_eq_spec svc, resolve_batch_eq_spec (degrade svc)]
    have h1 : (dedupCI names).filterMap (finalOutcome svc names fallbacks)
        = (dedupCI names).filterMap (finalOutcome (degrade svc) names fallbacks) :=
      List.filterMap_congr fun x _ => (finalOutcome_degrade svc names fallbacks x).symm
    have h2 : (dedupCI names).filter (fun n => (finalOutcome svc names fallbacks n).isNone)
        = (dedupCI names).filter
            (fun n => (finalOutcome (degrade svc) names fallbacks n).isNone) :=
      List.filter_congr fun x _ => by rw [finalOutcome_degrade svc names fallbacks x]
    rw [h1, h2]

/-- Witness for C3: a stub whose batch round fails transiently still produces
an ok result, identical to the run against the transient-free degraded stub. -/
theorem resolve_batch_total_transient_nonfatal_witness :
    resolve_batch_checked stubKnown ["Known Painter", "Ambiguous Statue Name"] ["de"]
      = Except.ok (resolve_batch stubKnown ["Known Painter", "Ambiguous Statue Name"] ["de"])
    ∧ resolve_batch stubKnown ["Known Painter", "Ambiguous Statue Name"] ["de"]
      = resolve_batch (degrade stubKnown) ["Known Painter", "Ambiguous Statue Name"] ["de"] :=
  resolve_batch_total_transient_nonfatal stubKnown
    ["Known Painter", "Ambiguous Statue Name"] ["de"] (by decide) (by decide)

/-- Fallback languages that all fail for a name are skipped without changing
the rest of the cascade. -/
theorem tryLangs_append_none (svc : Query → ClientOutcome) (n : String)
    (rest : List String) :
    ∀ fb1 : List String, (∀ l ∈ fb1, singleQuery svc n l = none) →
      tryLangs svc n (fb1 ++ rest) = tryLangs svc n rest := by
  intro fb1
  induction fb1 with
  | nil => intro _; rfl
  | cons l ls ih =>
      intro hfail
      rw [List.cons_append, tryLangs, hfail l (List.mem_cons_self l ls)]
      exact ih fun x hx => hfail x (List.mem_cons_of_mem l hx)

/-- Exhausting every fallback language without a match yields no record. -/
theorem tryLangs_none (svc : Query → ClientOutcome) (n : String)
    (fb : List String) (hfail : ∀ l ∈ fb, singleQuery svc n l = none) :
    tryLangs svc n fb = none := by
  have h := tryLangs_append_none svc n [] fb hfail
  rw [List.append_nil] at h
  exact h

/-- C4: for a name still pending after the batch and default-language rounds,
the fallback round tries the configured languages in priority order and stops
at the first one that matches, resolving the name with that language's record;
if every fallback language fails the name's cascade is empty and the name ends
among the unresolved. -/
theorem language_fallback_first_match_wins (svc : Query → ClientOutcome)
    (names fb1 fb2 : List String) (n l : String) (r : EntityRecord)
    (h1 : round1Outcome svc names n = none)
    (h2 : singleQuery svc n defaultLang = none)
    (hfail : ∀ x ∈ fb1, singleQuery svc n x = none)
    (hhit : singleQuery svc n l = some r) :
    finalOutcome svc names (fb1 ++ l :: fb2) n = some r
    ∧ (n ∈ dedupCI names → r ∈ (resolve_batch svc names (fb1 ++ l :: fb2)).resolved)
    ∧ ∀ fallbacks : List String, (∀ x ∈ fallbacks, singleQuery svc n x = none) →
        (finalOutcome svc names fallbacks n = none
          ∧ (n ∈ dedupCI names → n ∈ (resolve_batch svc names fallbacks).unresolved)) := by
  have hfo : finalOutcome svc names (fb1 ++ l :: fb2) n = some r := by
    simp only [finalOutcome, h1, h2]
    rw [tryLangs_append_none svc n (l :: fb2) fb1 hfail, tryLangs, hhit]
  refine ⟨hfo, ?_, ?_⟩
  · intro hmem
    rw [resolve_batch_eq_spec]
    exact List.mem_filterMap.mpr ⟨n, hmem, hfo⟩
  · intro fallbacks hfb
    have hnone : finalOutcome svc names fallbacks n = none := by
      simp only [finalOutcome, h1, h2]
      exact tryLangs_none svc n fallbacks hfb
    refine ⟨hnone, fun hmem => ?_⟩
    rw [resolve_batch_eq_spec]
    exact List.mem_filter.mpr ⟨hmem, by rw [hnone]; rfl⟩

/-- Witness for C4: the French-only painter fails in the default language and
under the first fallback, resolves under the second fallback with the French
record, and with only failing fallbacks ends unresolved. -/
theorem language_fallback_first_match_wins_witness :
    finalOutcome stubFr ["French Painter"] ["de", "fr"] "French Painter" = some frRec
    ∧ frRec ∈ (resolve_batch stubFr ["French Painter"] ["de", "fr"]).resolved
    ∧ finalOutcome stubFr ["French Painter"] ["de"] "French Painter" = none
    ∧ "French Painter" ∈ (resolve_batch stubFr ["French Painter"] ["de"]).unresolved := by
  have T := language_fallback_first_match_wins stubFr ["French Painter"] ["de"] []
    "French Painter" "fr" frRec (by decide) (by decide) (by decide) (by decide)
  have T2 := T.2.2 ["de"] (by decide)
  exact ⟨T.1, T.2.1 (by decide), T2.1, T2.2 (by decide)⟩

/-- A failed case-insensitive match fails in both directions. -/
theorem ciEq_symm_false {a b : String} (h : ciEq a b = false) : ciEq b a = false := by
  cases hba : ciEq b a with
  | false => rfl
  | true =>
      rw [ciEq_symm hba] at h
      exact Bool.noConfusion h

/-- Two distinct-request entries that match case-insensitively are the same
entry. -/
theorem dedupCI_ci_inj {names : List String} {u d : String}
    (hu : u ∈ dedupCI names) (hd : d ∈ dedupCI names) (h : ciEq u d = true) : u = d := by
  by_contra hne
  have hp := dedupCI_pairwise names
  have hsym : Symmetric (fun a b : String => ciEq a b = false) :=
    fun a b hab => ciEq_symm_false hab
  have hfalse := List.Pairwise.forall hsym hp hu hd hne
  rw [h] at hfalse
  exact Bool.noConfusion hfalse

/-- The distinct-request list counts exactly the distinct lowercase forms of
the batch. -/
theorem dedupCI_length (names : List String) :
    (dedupCI names).length = ((names.map String.toLower).dedup).length := by
  have h1 : ((dedupCI names).map String.toLower).Nodup :=
    List.Pairwise.map String.toLower (fun a b hab => ciEq_false hab)
      (dedupCI_pairwise names)
  have h2 : ∀ x, x ∈ (dedupCI names).map String.toLower
      ↔ x ∈ (names.map String.toLower).dedup := by
    intro x
    rw [List.mem_dedup]
    constructor
    · intro hx
      obtain ⟨d, hd, hdx⟩ := List.mem_map.mp hx
      exact List.mem_map.mpr ⟨d, (dedupCI_sublist names).subset hd, hdx⟩
    · intro hx
      obtain ⟨m, hm, hmx⟩ := List.mem_map.mp hx
      obtain ⟨d, hd, hci⟩ := dedupCI_covers hm
      exact List.mem_map.mpr ⟨d, hd, (ciEq_eq.mp hci).trans hmx⟩
  have h3 : ((dedupCI names).map String.toLower).toFinset
      = ((names.map String.toLower).dedup).toFinset := by
    refine Finset.ext fun x => ?_
    rw [List.mem_toFinset, List.mem_toFinset]
    exact h2 x
  calc (dedupCI names).length
      = ((dedupCI names).map String.toLower).length := (List.length_map _ _).symm
    _ = ((dedupCI names).map String.toLower).toFinset.card :=
        (List.toFinset_card_of_nodup h1).symm
    _ = ((names.map String.toLower).dedup).toFinset.card := by rw [h3]
    _ = ((names.map String.toLower).dedup).length :=
        List.toFinset_card_of_nodup (List.nodup_dedup _)

/-- C1: on a non-empty batch, resolved and unresolved partition the request
set: their sizes sum to the number of distinct names under case-insensitive
identity, every batch name appears in exactly one of the two sequences (in
resolved as the name of a record reachable by case-insensitive match), and
the union of the two, ignoring order, is the request set up to
case-insensitive identity. -/
theorem resolve_batch_partitions_request_names (svc : Query → ClientOutcome)
    (names fallbacks : List String) (_hne : names ≠ []) :
    ((resolve_batch svc names fallbacks).resolved.length
        + (resolve_batch svc names fallbacks).unresolved.length
      = ((names.map String.toLower).dedup).length)
    ∧ (∀ n ∈ names,
        Xor' (∃ r ∈ (resolve_batch svc names fallbacks).resolved, ciEq r.name n = true)
             (∃ u ∈ (resolve_batch svc names fallbacks).unresolved, ciEq u n = true))
    ∧ ∀ s : String,
        ((∃ r ∈ (resolve_batch svc names fallbacks).resolved, ciEq r.name s = true)
          ∨ (∃ u ∈ (resolve_batch svc names fallbacks).unresolved, ciEq u s = true))
        ↔ ∃ n ∈ names, ciEq n s = true := by
  have hspec := resolve_batch_eq_spec svc names fallbacks
  have hres : (resolve_batch svc names fallbacks).resolved
      = (dedupCI names).filterMap (finalOutcome svc names fallbacks) := by rw [hspec]
  have hunres : (resolve_batch svc names fallbacks).unresolved
      = (dedupCI names).filter
          (fun n => (finalOutcome svc names fallbacks n).isNone) := by rw [hspec]
  have hmem_res : ∀ r, r ∈ (resolve_batch svc names fallbacks).resolved
      ↔ ∃ d ∈ dedupCI names, finalOutcome svc names fallbacks d = some r := by
    intro r
    rw [hres]
    exact List.mem_filterMap
  have hmem_unres : ∀ u, u ∈ (resolve_batch svc names fallbacks).unresolved
      ↔ u ∈ dedupCI names ∧ finalOutcome svc names fallbacks u = none := by
    intro u
    rw [hunres, List.mem_filter]
    constructor
    · rintro ⟨hu1, hu2⟩
      exact ⟨hu1, Option.isNone_iff_eq_none.mp hu2⟩
    · rintro ⟨hu1, hu2⟩
      exact ⟨hu1, by rw [hu2]; rfl⟩
  have hxor : ∀ n ∈ names,
      Xor' (∃ r ∈ (resolve_batch svc names fallbacks).resolved, ciEq r.name n = true)
           (∃ u ∈ (resolve_batch svc names fallbacks).unresolved, ciEq u n = true) := by
    intro n hn
    obtain ⟨d, hd, hci⟩ := dedupCI_covers hn
    cases hFd : finalOutcome svc names fallbacks d with
    | some r =>
        refine Or.inl ⟨⟨r, (hmem_res r).mpr ⟨d, hd, hFd⟩,
          ciEq_trans (finalOutcome_ci hFd) hci⟩, ?_⟩
        rintro ⟨u, hu, hciu⟩
        obtain ⟨hud, hFu⟩ := (hmem_unres u).mp hu
        have hud2 : u = d := dedupCI_ci_inj hud hd (ciEq_trans hciu (ciEq_symm hci))
        rw [hud2, hFd] at hFu
        exact Option.noConfusion hFu
    | none =>
        refine Or.inr ⟨⟨d, (hmem_unres d).mpr ⟨hd, hFd⟩, hci⟩, ?_⟩
        rintro ⟨r, hr, hcir⟩
        obtain ⟨d2, hd2, hFd2⟩ := (hmem_res r).mp hr
        have hcid2 : ciEq d2 n = true :=
          ciEq_trans (ciEq_symm (finalOutcome_ci hFd2)) hcir
        have hdd : d2 = d := dedupCI_ci_inj hd2 hd (ciEq_trans hcid2 (ciEq_symm hci))
        rw [hdd, hFd] at hFd2
        exact Option.noConfusion hFd2
  refine ⟨?_, hxor, ?_⟩
  · rw [hres, hunres, length_filterMap_add_filter_none, dedupCI_length]
  · intro s
    constructor
    · rintro (⟨r, hr, hcir⟩ | ⟨u, hu, hciu⟩)
      · obtain ⟨d, hd, hFd⟩ := (hmem_res r).mp hr
        exact ⟨d, (dedupCI_sublist names).subset hd,
          ciEq_trans (ciEq_symm (finalOutcome_ci hFd)) hcir⟩
      · obtain ⟨hud, _⟩ := (hmem_unres u).mp hu
        exact ⟨u, (dedupCI_sublist names).subset hud, hciu⟩
    · rintro ⟨n, hn, hcins⟩
      refine (hxor n hn).elim (fun h => ?_) (fun h => ?_)
      · obtain ⟨⟨r, hr, hcirn⟩, -⟩ := h
        exact Or.inl ⟨r, hr, ciEq_trans hcirn hcins⟩
      · obtain ⟨⟨u, hu, hciun⟩, -⟩ := h
        exact Or.inr ⟨u, hu, ciEq_trans hciun hcins⟩

/-- Witness for C1: the spec's two-name scenario - the known painter resolves
in the retry round while the ambiguous statue name exhausts every round - and
the partition invariant holds for it. -/
theorem resolve_batch_partitions_request_names_witness :
    (["Known Painter", "Ambiguous Statue Name"] : List String) ≠ []
    ∧ (((resolve_batch stubKnown ["Known Painter", "Ambiguous Statue Name"] ["de"]).resolved.length
          + (resolve_batch stubKnown
              ["Known Painter", "Ambiguous Statue Name"] ["de"]).unresolved.length
        = (((["Known Painter", "Ambiguous Statue Name"] : List String).map
              String.toLower).dedup).length)
      ∧ (∀ n ∈ (["Known Painter", "Ambiguous Statue Name"] : List String),
          Xor' (∃ r ∈ (resolve_batch stubKnown
                  ["Known Painter", "Ambiguous Statue Name"] ["de"]).resolved,
                ciEq r.name n = true)
               (∃ u ∈ (resolve_batch stubKnown
                  ["Known Painter", "Ambiguous Statue Name"] ["de"]).unresolved,
                ciEq u n = true))
      ∧ ∀ s : String,
          ((∃ r ∈ (resolve_batch stubKnown
                ["Known Painter", "Ambiguous Statue Name"] ["de"]).resolved,
              ciEq r.name s = true)
            ∨ (∃ u ∈ (resolve_batch stubKnown
                ["Known Painter", "Ambiguous Statue Name"] ["de"]).unresolved,
              ciEq u s = true))
          ↔ ∃ n ∈ (["Known Painter", "Ambiguous Statue Name"] : List String),
              ciEq n s = true) :=
  ⟨by decide,
    resolve_batch_partitions_request_names stubKnown
      ["Known Painter", "Ambiguous Statue Name"] ["de"] (by decide)⟩
